import Mathlib

set_option linter.unusedVariables false

/-!
Verification of the playlist ordering & mutation engine of Clementine
(src/playlist/playlist.h).  The repository contains only the class
declaration; every operation body that the claims depend on is modelled
from the specification (doc comments starting with `Modelled from the
spec:` mark those definitions).  Declarations that are fully visible in
the header (`has_item_at`, `item_at`, `rowCount`, the default `pos = -1`
arguments of the public insertion operations) are translated directly.
-/

namespace Clementine

/-- Track Entry (spec §3): static metadata (here represented by the title),
a validity flag, and an optional back-reference to a library record ID
(`Song::id()` used as key of `library_items_by_id_`). -/
structure Song where
  title : String
  libraryId : Option Nat
  valid : Bool
  deriving DecidableEq, Repr, Inhabited

/-- Shuffle modes of `PlaylistSequence` (spec §4.2): {off, all, by-album,
by-artist}.  `PlaylistSequence` is not part of the repository sources. -/
inductive ShuffleMode
  | off
  | all
  | byAlbum
  | byArtist
  deriving DecidableEq, Repr

/-- Repeat modes of `PlaylistSequence` (spec §4.2): {off, track, album,
playlist}. -/
inductive RepeatMode
  | off
  | track
  | album
  | playlist
  deriving DecidableEq, Repr

/-- Observable notifications of the engine (spec §6): we model the two that
the claims mention: the structural-change signal `PlaylistChanged` and the
current-item signal `CurrentSongChanged`. -/
inductive PEvent
  | playlistChanged
  | currentChanged
  deriving DecidableEq, Repr

/-! ### Index-set helpers for the move primitives -/

/-- Shift a set of row indices down by one, discarding index 0.  Used to
recurse over a list while tracking which positions are selected. -/
def shiftDown : List Nat → List Nat
  | [] => []
  | 0 :: R => shiftDown R
  | (r+1) :: R => r :: shiftDown R

/-- Split a list into (entries whose index is in `R`, remaining entries),
both in original relative order. -/
def splitByIdx : List Nat → List α → List α × List α
  | _, [] => ([], [])
  | R, a :: l =>
    let p := splitByIdx (shiftDown R) l
    if 0 ∈ R then (a :: p.1, p.2) else (p.1, a :: p.2)

/-- Interleave `block` back into `rest` so that the elements of `block`
occupy the positions listed in `R` (ascending) in the result. -/
def scatterIdx : List Nat → List α → List α → List α
  | _, [], rest => rest
  | R, b :: bl, rest =>
    if 0 ∈ R then b :: scatterIdx (shiftDown R) bl rest
    else
      match rest with
      | [] => b :: bl
      | r :: rl => r :: scatterIdx (shiftDown R) (b :: bl) rl
termination_by R bl rest => bl.length + rest.length
decreasing_by
  all_goals simp +arith

/-- Modelled from the spec: `MoveItemsWithoutUndo(source_rows, pos)`
(body absent from the repository) — "relocates a set of entries (not
necessarily contiguous) to begin at `destination`, preserving their
relative order" (spec §4.1).  List-level core. -/
def moveShape1 (R : List Nat) (d : Nat) (l : List α) : List α :=
  let p := splitByIdx R l
  p.2.take d ++ p.1 ++ p.2.drop d

/-- Modelled from the spec: `MoveItemsWithoutUndo(start, dest_rows)`
(body absent from the repository) — "move a contiguous block to these
scattered destinations" (spec §4.1).  List-level core. -/
def moveShape2 (start : Nat) (D : List Nat) (l : List α) : List α :=
  let k := D.length
  let block := (l.drop start).take k
  let rest := l.take start ++ l.drop (start + k)
  scatterIdx D block rest

/-! ### Shuffling -/

/-- Modelled from the spec: the "uniform random permutation" used by
`ReshuffleIndices` under shuffle mode "all" (spec §4.2); randomness is
replaced by a deterministic seeded selection (Fisher-Yates style: each
round extracts the element at position `seed % length`).  The claims
depend only on the result being a permutation of the input. -/
def pseudoShuffle : Nat → List α → List α
  | _, [] => []
  | seed, a :: t =>
    let i := seed % (t.length + 1)
    match h : (a :: t).drop i with
    | [] => a :: t
    | x :: rest => x :: pseudoShuffle (seed / (t.length + 1) + 1) ((a :: t).take i ++ rest)
termination_by _ l => l.length
decreasing_by
  have hlen := congrArg List.length h
  simp at hlen
  simp [List.length_take]
  omega

/-- Modelled from the spec: `ReshuffleIndices` (body absent from the
repository) — "Rebuild policy: ... under 'off', identity permutation;
under the shuffle modes, a permutation of all indices" (spec §4.2). -/
def reshuffleIndices (mode : ShuffleMode) (seed n : Nat) : List Nat :=
  match mode with
  | .off => List.range n
  | _ => pseudoShuffle seed (List.range n)

/-! ### Library reverse index -/

/-- The key/value pairs that the library reverse index must hold for a given
item list: one pair `(k, e)` per entry `e` whose library back-reference is
`k` (spec §3: "this index is exactly the inverse of the 'library
back-reference' field across all entries"). -/
def libIndexOf (items : List Song) : List (Nat × Song) :=
  items.filterMap (fun e => e.libraryId.map (fun k => (k, e)))

/-- Remove the first occurrence of the pair `(k, e)` from an association
list (the effect of `QMultiMap::remove(key, value)` for one value). -/
def eraseOnePair (k : Nat) (e : Song) : List (Nat × Song) → List (Nat × Song)
  | [] => []
  | p :: ps => if p = (k, e) then ps else p :: eraseOnePair k e ps

/-- Modelled from the spec: removal maintenance of `library_items_by_id_`
(body absent from the repository) — drop one pair for each removed entry
that carries a library back-reference. -/
def eraseLibPairs (removed : List Song) (m : List (Nat × Song)) : List (Nat × Song) :=
  removed.foldl
    (fun acc e =>
      match e.libraryId with
      | some k => eraseOnePair k e acc
      | none => acc)
    m

/-- Modelled from the spec: the insertion position is "clamped to [0, size];
`position = size` or unspecified means append", and "an unspecified/negative
position means append at the end" (spec §4.1, §4.4). -/
def clampInsertPos (pos : Int) (size : Nat) : Nat :=
  if pos < 0 ∨ pos > (size : Int) then size else pos.toNat

/-! ### Undo commands and playlist state -/

/-- A mutation request handed to the Mutation Log (spec §3, §4.3). -/
inductive Command
  | insert (entries : List Song) (pos : Int)
  | remove (pos count : Nat)
  | move (sourceRows : List Nat) (pos : Nat)
  deriving Repr

/-- An applied, reversible command as stored on `undo_stack_`
(`PlaylistUndoCommands::InsertItems/RemoveItems/MoveItems`): insert
remembers its clamped position and entries, remove captures the removed
entries for undo, move remembers its source rows and destination. -/
inductive AppliedCmd
  | insert (pos : Nat) (entries : List Song)
  | remove (pos : Nat) (captured : List Song)
  | move (sourceRows : List Nat) (pos : Nat)
  deriving Repr

/-- Pointer adjustment after inserting `k` entries at position `p`
(spec §3: pointers are stable references recomputed after mutation). -/
def remapInsertPtr (p k : Nat) : Option Nat → Option Nat
  | none => none
  | some i => some (if p ≤ i then i + k else i)

/-- Pointer adjustment after removing `c` entries at position `p`
(spec §4.1: inside the range → cleared; after the range → decremented). -/
def remapRemovePtr (p c : Nat) : Option Nat → Option Nat
  | none => none
  | some i => if i < p then some i else if i < p + c then none else some (i - c)

/-- The state of one `Playlist` instance, restricted to the fields the
claims are about (field names follow `playlist.h`).  Playlist items are
represented by their `Song`; the external queue, proxy model and backends
are out of scope (spec §1, §6). -/
structure Playlist where
  items_ : List Song
  virtual_items_ : List Nat
  library_items_by_id_ : List (Nat × Song)
  current_item_index_ : Option Nat
  last_played_item_index_ : Option Nat
  stop_after_ : Option Nat
  shuffle_mode_ : ShuffleMode
  repeat_mode_ : RepeatMode
  undo_stack_ : List AppliedCmd
  redo_stack_ : List AppliedCmd
  veto_listeners_ : List (List Song → List Song → List Song)
  events_ : List PEvent

/-- `int rowCount(...) const { return items_.count(); }` (playlist.h). -/
def Playlist.rowCount (s : Playlist) : Nat := s.items_.length

/-- `const bool has_item_at(int index) const { return index >= 0 && index <
rowCount(); }` (playlist.h). -/
def Playlist.has_item_at (s : Playlist) (index : Int) : Bool :=
  decide (0 ≤ index) && decide (index < (s.rowCount : Int))

/-- `const PlaylistItemPtr& item_at(int index) const { return items_[index]; }`
(playlist.h): unchecked positional access; the bound is a precondition, here
an explicit proof argument. -/
def Playlist.item_at (s : Playlist) (index : Nat) (h : index < s.items_.length) : Song :=
  s.items_.get ⟨index, h⟩

/-- `SongList GetAllSongs() const` — the current entries in display order. -/
def Playlist.GetAllSongs (s : Playlist) : List Song := s.items_

/-! ### Mutation primitives (the "without undo" layer, spec §4.1) -/

/-- Modelled from the spec: `InsertItemsWithoutUndo` (body absent from the
repository) — insert at `p` (already clamped), shift subsequent indices,
update the library reverse-index, emit a structural-change notification,
regenerate the Playback-Order Index (spec §4.1, §4.2). -/
def Playlist.InsertItemsWithoutUndo (s : Playlist) (p : Nat) (new : List Song) (seed : Nat) : Playlist :=
  let items' := s.items_.take p ++ new ++ s.items_.drop p
  { s with
    items_ := items'
    virtual_items_ := reshuffleIndices s.shuffle_mode_ seed items'.length
    library_items_by_id_ := s.library_items_by_id_ ++ libIndexOf new
    current_item_index_ := remapInsertPtr p new.length s.current_item_index_
    last_played_item_index_ := remapInsertPtr p new.length s.last_played_item_index_
    stop_after_ := remapInsertPtr p new.length s.stop_after_
    events_ := s.events_ ++ [PEvent.playlistChanged] }

/-- Modelled from the spec: `RemoveItemsWithoutUndo(int pos, int count)`
(body absent from the repository) — remove `count` entries at `pos`
(callers validate the range), return them for undo capture, update the
reverse-index, clear or shift the pointers, fire `CurrentSongChanged`
when the current item was removed (spec §4.1). -/
def Playlist.RemoveItemsWithoutUndo (s : Playlist) (p c : Nat) (seed : Nat) : Playlist × List Song :=
  let removed := (s.items_.drop p).take c
  let items' := s.items_.take p ++ s.items_.drop (p + c)
  let cleared :=
    match s.current_item_index_ with
    | some i => decide (p ≤ i ∧ i < p + c)
    | none => false
  ({ s with
     items_ := items'
     virtual_items_ := reshuffleIndices s.shuffle_mode_ seed items'.length
     library_items_by_id_ := eraseLibPairs removed s.library_items_by_id_
     current_item_index_ := remapRemovePtr p c s.current_item_index_
     last_played_item_index_ := remapRemovePtr p c s.last_played_item_index_
     stop_after_ := remapRemovePtr p c s.stop_after_
     events_ := s.events_ ++ (if cleared then [PEvent.currentChanged] else []) ++ [PEvent.playlistChanged] },
   removed)

/-- Modelled from the spec: `MoveItemsWithoutUndo(const QList<int>&
source_rows, int pos)` (body absent from the repository) — relocate the
entries at `source_rows` to begin at `pos`, remap the current/last-played/
stop-after pointers through the permutation (spec §4.1). -/
def Playlist.MoveItemsWithoutUndo (s : Playlist) (R : List Nat) (d : Nat) (seed : Nat) : Playlist :=
  let perm := moveShape1 R d (List.range s.items_.length)
  let remap : Option Nat → Option Nat := fun o => o.map (fun i => perm.indexOf i)
  let items' := moveShape1 R d s.items_
  { s with
    items_ := items'
    virtual_items_ := reshuffleIndices s.shuffle_mode_ seed items'.length
    current_item_index_ := remap s.current_item_index_
    last_played_item_index_ := remap s.last_played_item_index_
    stop_after_ := remap s.stop_after_
    events_ := s.events_ ++ [PEvent.playlistChanged] }

/-- Modelled from the spec: `MoveItemsWithoutUndo(int start, const
QList<int>& dest_rows)` (body absent from the repository) — move the
contiguous block starting at `start` to the scattered destinations
`dest_rows`, remapping pointers the same way (spec §4.1). -/
def Playlist.MoveItemsWithoutUndoDest (s : Playlist) (start : Nat) (D : List Nat) (seed : Nat) : Playlist :=
  let perm := moveShape2 start D (List.range s.items_.length)
  let remap : Option Nat → Option Nat := fun o => o.map (fun i => perm.indexOf i)
  let items' := moveShape2 start D s.items_
  { s with
    items_ := items'
    virtual_items_ := reshuffleIndices s.shuffle_mode_ seed items'.length
    current_item_index_ := remap s.current_item_index_
    last_played_item_index_ := remap s.last_played_item_index_
    stop_after_ := remap s.stop_after_
    events_ := s.events_ ++ [PEvent.playlistChanged] }

/-! ### Mutation Log (undo engine, spec §4.3) -/

/-- Modelled from the spec: `execute(command)` applies the command to the
Item Store and pushes it onto `undo_stack_`; pushing clears the redo
history.  An out-of-range remove is rejected by the caller-facing layer
(`removeRows`) and leaves the state unchanged. -/
def Playlist.execute (s : Playlist) (c : Command) (seed : Nat) : Playlist :=
  match c with
  | .insert entries pos =>
    let p := clampInsertPos pos s.items_.length
    let s' := s.InsertItemsWithoutUndo p entries seed
    { s' with undo_stack_ := AppliedCmd.insert p entries :: s.undo_stack_, redo_stack_ := [] }
  | .remove pos count =>
    if pos + count ≤ s.items_.length then
      let r := s.RemoveItemsWithoutUndo pos count seed
      { r.1 with undo_stack_ := AppliedCmd.remove pos r.2 :: s.undo_stack_, redo_stack_ := [] }
    else s
  | .move R d =>
    let s' := s.MoveItemsWithoutUndo R d seed
    { s' with undo_stack_ := AppliedCmd.move R d :: s.undo_stack_, redo_stack_ := [] }

/-- Modelled from the spec: the inverse of an applied command — "remove's
inverse is insert-with-captured-entries; insert's inverse is remove;
move's inverse is the reverse permutation" (spec §4.3). -/
def Playlist.applyInverse (s : Playlist) (c : AppliedCmd) (seed : Nat) : Playlist :=
  match c with
  | .insert p entries => (s.RemoveItemsWithoutUndo p entries.length seed).1
  | .remove p captured => s.InsertItemsWithoutUndo p captured seed
  | .move R d => s.MoveItemsWithoutUndoDest d R seed

/-- Re-application of an applied command (used by `redo()`). -/
def Playlist.applyForward (s : Playlist) (c : AppliedCmd) (seed : Nat) : Playlist :=
  match c with
  | .insert p entries => s.InsertItemsWithoutUndo p entries seed
  | .remove p captured => (s.RemoveItemsWithoutUndo p captured.length seed).1
  | .move R d => s.MoveItemsWithoutUndo R d seed

/-- Modelled from the spec: `undo()` pops the most recent command and
applies its inverse (spec §4.3). -/
def Playlist.undo (s : Playlist) (seed : Nat) : Playlist :=
  match s.undo_stack_ with
  | [] => s
  | c :: rest =>
    { s.applyInverse c seed with undo_stack_ := rest, redo_stack_ := c :: s.redo_stack_ }

/-- Modelled from the spec: `redo()` re-applies the most recently undone
command (spec §4.3). -/
def Playlist.redo (s : Playlist) (seed : Nat) : Playlist :=
  match s.redo_stack_ with
  | [] => s
  | c :: rest =>
    { s.applyForward c seed with undo_stack_ := c :: s.undo_stack_, redo_stack_ := rest }

/-! ### Insertion pipeline (spec §4.4) -/

/-- Modelled from the spec: the union of the "invalid" subsets returned by
every registered veto listener, each called with `(existing entries,
candidate entries)` (spec §4.4, `SongInsertVetoListener::AboutToInsertSongs`). -/
def vetoedSongs (s : Playlist) (candidates : List Song) : List Song :=
  s.veto_listeners_.foldl (fun acc L => acc ++ L s.GetAllSongs candidates) []

/-- Modelled from the spec: the candidates that survive the veto round —
"this spec treats veto as 'exclude from insertion'" (spec §4.4). -/
def survivors (s : Playlist) (candidates : List Song) : List Song :=
  candidates.filter (fun c => decide (c ∉ vetoedSongs s candidates))

/-- Modelled from the spec: `InsertItems` — run the veto listeners, then
submit the surviving entries to the Mutation Log as a single batched
insert command; `play_now` makes the first inserted entry current
(spec §4.4).  Default arguments as declared in playlist.h:
`pos = -1`, `play_now = false`, `enqueue = false`.  The external queue
(`enqueue`) is out of scope (spec §1). -/
def Playlist.InsertItems (s : Playlist) (items : List Song) (pos : optParam Int (-1))
    (play_now : optParam Bool false) (enqueue : optParam Bool false)
    (seed : optParam Nat 0) : Playlist :=
  let surv := survivors s items
  let s' := s.execute (Command.insert surv pos) seed
  if play_now && decide (surv ≠ []) then
    { s' with current_item_index_ := some (clampInsertPos pos s.items_.length) }
  else s'

/-- `InsertSongs` (playlist.h, default `pos = -1`): songs are already
concrete entries, so the pipeline step is the shared one. -/
def Playlist.InsertSongs (s : Playlist) (items : List Song) (pos : optParam Int (-1))
    (play_now : optParam Bool false) (enqueue : optParam Bool false)
    (seed : optParam Nat 0) : Playlist :=
  s.InsertItems items pos play_now enqueue seed

/-- `InsertLibraryItems` (playlist.h, default `pos = -1`): entries carrying
library back-references. -/
def Playlist.InsertLibraryItems (s : Playlist) (items : List Song) (pos : optParam Int (-1))
    (play_now : optParam Bool false) (enqueue : optParam Bool false)
    (seed : optParam Nat 0) : Playlist :=
  s.InsertItems items pos play_now enqueue seed

/-- `InsertSongsOrLibraryItems` (playlist.h, default `pos = -1`). -/
def Playlist.InsertSongsOrLibraryItems (s : Playlist) (items : List Song) (pos : optParam Int (-1))
    (play_now : optParam Bool false) (enqueue : optParam Bool false)
    (seed : optParam Nat 0) : Playlist :=
  s.InsertItems items pos play_now enqueue seed

/-- Modelled from the spec: `InsertSmartPlaylist` (default `pos = -1`) —
the generator's initial output is inserted through the pipeline
(spec §4.4, §4.5); the generator is represented by its produced entries. -/
def Playlist.InsertSmartPlaylist (s : Playlist) (gen : List Song) (pos : optParam Int (-1))
    (play_now : optParam Bool false) (enqueue : optParam Bool false)
    (seed : optParam Nat 0) : Playlist :=
  s.InsertItems gen pos play_now enqueue seed

/-- Modelled from the spec: `InsertUrls` (default `pos = -1`) — URLs are
resolved to entries by a collaborator; unresolvable ones are omitted and
insertion of the remainder proceeds (spec §4.4, §7). -/
def Playlist.InsertUrls (s : Playlist) (resolve : String → Option Song) (urls : List String)
    (pos : optParam Int (-1)) (play_now : optParam Bool false) (enqueue : optParam Bool false)
    (seed : optParam Nat 0) : Playlist :=
  s.InsertItems (urls.filterMap resolve) pos play_now enqueue seed

/-- The error taxonomy entry for position/count outside current bounds
(spec §7). -/
inductive PlaylistError
  | outOfRange
  deriving DecidableEq, Repr

/-- Modelled from the spec: `removeRows(row, count)` — "removes `count`
entries starting at `position` (fails with OutOfRange if the range is not
fully contained)" (spec §4.1, §7); a validated remove goes to the Mutation
Log, a failed one leaves the state unchanged. -/
def Playlist.removeRows (s : Playlist) (row count : Int) (seed : optParam Nat 0) :
    Playlist × Option PlaylistError :=
  if 0 ≤ row ∧ 0 ≤ count ∧ row + count ≤ (s.items_.length : Int) then
    (s.execute (Command.remove row.toNat count.toNat) seed, none)
  else
    (s, some PlaylistError.outOfRange)

/-! ### Shuffle/repeat traversal (spec §4.2) -/

/-- Modelled from the spec: `NextVirtualIndex` (body absent from the
repository) — the virtual position played after virtual position `i`:
under repeat-track the same position; otherwise the next one, and at the
boundary "none" unless repeat-playlist is active, in which case it wraps
(spec §4.2). -/
def Playlist.NextVirtualIndex (s : Playlist) (i : Nat) : Option Nat :=
  match s.repeat_mode_ with
  | .track => some i
  | .playlist => if i + 1 < s.virtual_items_.length then some (i + 1) else some 0
  | _ => if i + 1 < s.virtual_items_.length then some (i + 1) else none

/-- Modelled from the spec: `next_row(current)` — locate `current` in the
Playback-Order Index and return the store index at the adjacent virtual
position (spec §4.2). -/
def Playlist.next_row (s : Playlist) (current : Nat) : Option Nat :=
  (s.NextVirtualIndex (s.virtual_items_.indexOf current)).bind (fun j => s.virtual_items_[j]?)

/-! ### Operation sequences -/

/-- One executed mutation of the Item Store (insert, remove or move), with
the seed consumed by the reshuffle it triggers. -/
inductive Op
  | insert (entries : List Song) (pos : Int) (seed : Nat)
  | remove (pos count : Nat) (seed : Nat)
  | move (sourceRows : List Nat) (pos : Nat) (seed : Nat)

/-- Apply one operation through the Mutation Log. -/
def Playlist.applyOp (s : Playlist) : Op → Playlist
  | .insert entries pos seed => s.execute (Command.insert entries pos) seed
  | .remove pos count seed => s.execute (Command.remove pos count) seed
  | .move R d seed => s.execute (Command.move R d) seed

/-- Apply a sequence of operations in order. -/
def Playlist.applyOps (s : Playlist) (ops : List Op) : Playlist :=
  ops.foldl Playlist.applyOp s

/-- A freshly constructed, empty playlist. -/
def emptyPlaylist (shuffle : ShuffleMode) (rep : RepeatMode) : Playlist where
  items_ := []
  virtual_items_ := []
  library_items_by_id_ := []
  current_item_index_ := none
  last_played_item_index_ := none
  stop_after_ := none
  shuffle_mode_ := shuffle
  repeat_mode_ := rep
  undo_stack_ := []
  redo_stack_ := []
  veto_listeners_ := []
  events_ := []

/-! ### List-level lemmas about the move primitives -/

theorem splitByIdx_nil_left (l : List α) : splitByIdx [] l = ([], l) := by
  induction l with
  | nil => rfl
  | cons a t ih => simp [splitByIdx, shiftDown, ih]

theorem mem_shiftDown (R : List Nat) (j : Nat) : j ∈ shiftDown R ↔ j + 1 ∈ R := by
  induction R with
  | nil => simp [shiftDown]
  | cons r R ih =>
    cases r with
    | zero => simp [shiftDown, ih]
    | succ r =>
      simp only [shiftDown, List.mem_cons, ih]
      constructor
      · rintro (h | h)
        · exact Or.inl (by omega)
        · exact Or.inr h
      · rintro (h | h)
        · exact Or.inl (by omega)
        · exact Or.inr h

theorem nodup_shiftDown (R : List Nat) (h : R.Nodup) : (shiftDown R).Nodup := by
  induction R with
  | nil => simp [shiftDown]
  | cons r R ih =>
    cases r with
    | zero => exact ih h.of_cons
    | succ r =>
      refine List.nodup_cons.mpr ⟨fun hc => ?_, ih h.of_cons⟩
      exact (List.nodup_cons.mp h).1 ((mem_shiftDown R r).mp hc)

theorem length_shiftDown (R : List Nat) (h : R.Nodup) :
    (shiftDown R).length = R.length - (if 0 ∈ R then 1 else 0) := by
  induction R with
  | nil => simp [shiftDown]
  | cons r R ih =>
    have hmem := (List.nodup_cons.mp h).1
    cases r with
    | zero => simp [shiftDown, ih h.of_cons, hmem]
    | succ r =>
      by_cases h0 : 0 ∈ R
      · have hm : (0:Nat) ∈ (r + 1) :: R := List.mem_cons_of_mem _ h0
        have hlen : 1 ≤ R.length := List.length_pos.mpr (List.ne_nil_of_mem h0)
        simp only [shiftDown, List.length_cons, ih h.of_cons, h0, hm, if_true]
        omega
      · have hm : ¬ (0:Nat) ∈ (r + 1) :: R := by simp [h0]
        simp [shiftDown, ih h.of_cons, h0, hm]

theorem scatterIdx_nil (R : List Nat) (rest : List α) : scatterIdx R [] rest = rest := by
  rw [scatterIdx.eq_def]

theorem scatterIdx_cons_mem (R : List Nat) (h : 0 ∈ R) (b : α) (bl rest : List α) :
    scatterIdx R (b :: bl) rest = b :: scatterIdx (shiftDown R) bl rest := by
  rw [scatterIdx.eq_def]
  simp [h]

theorem scatterIdx_cons_nil (R : List Nat) (h : ¬ 0 ∈ R) (b : α) (bl : List α) :
    scatterIdx R (b :: bl) [] = b :: bl := by
  rw [scatterIdx.eq_def]
  simp [h]

theorem scatterIdx_cons_cons (R : List Nat) (h : ¬ 0 ∈ R) (b : α) (bl : List α)
    (r : α) (rl : List α) :
    scatterIdx R (b :: bl) (r :: rl) = r :: scatterIdx (shiftDown R) (b :: bl) rl := by
  rw [scatterIdx.eq_def]
  simp [h]

/-- Scattering the selected entries back to their selected positions among
the rest reconstructs the original list. -/
theorem scatterIdx_splitByIdx (R : List Nat) (l : List α) :
    scatterIdx R (splitByIdx R l).1 (splitByIdx R l).2 = l := by
  induction l generalizing R with
  | nil => simp [splitByIdx, scatterIdx_nil]
  | cons a t ih =>
    by_cases h0 : 0 ∈ R
    · simp [splitByIdx, h0, scatterIdx_cons_mem _ h0, ih]
    · cases hp : (splitByIdx (shiftDown R) t).1 with
      | nil =>
        have hs := ih (shiftDown R)
        rw [hp, scatterIdx_nil] at hs
        simp [splitByIdx, h0, hp, scatterIdx_nil, hs]
      | cons b bl =>
        have hs := ih (shiftDown R)
        rw [hp] at hs
        simp [splitByIdx, h0, hp, scatterIdx_cons_cons _ h0, hs]

theorem splitByIdx_length_sum (R : List Nat) (l : List α) :
    (splitByIdx R l).1.length + (splitByIdx R l).2.length = l.length := by
  induction l generalizing R with
  | nil => simp [splitByIdx]
  | cons a t ih =>
    have := ih (shiftDown R)
    by_cases h0 : 0 ∈ R
    · simp only [splitByIdx, h0, if_true, List.length_cons]
      omega
    · simp only [splitByIdx, h0, if_false, List.length_cons]
      omega

theorem splitByIdx_length_fst (R : List Nat) (l : List α) (hd : R.Nodup)
    (hb : ∀ i ∈ R, i < l.length) : (splitByIdx R l).1.length = R.length := by
  induction l generalizing R with
  | nil =>
    have : R = [] := List.eq_nil_iff_forall_not_mem.mpr
      (fun i hi => absurd (hb i hi) (by simp))
    simp [this, splitByIdx]
  | cons a t ih =>
    have hrec := ih (shiftDown R) (nodup_shiftDown R hd)
      (fun i hi => by
        have := hb (i + 1) ((mem_shiftDown R i).mp hi)
        simp at this ⊢; omega)
    have hlen := length_shiftDown R hd
    by_cases h0 : 0 ∈ R
    · have : 1 ≤ R.length := List.length_pos.mpr (List.ne_nil_of_mem h0)
      simp [splitByIdx, h0, hrec, hlen]; omega
    · simp [splitByIdx, h0, hrec, hlen]

theorem splitByIdx_append_perm (R : List Nat) (l : List α) :
    List.Perm ((splitByIdx R l).1 ++ (splitByIdx R l).2) l := by
  induction l generalizing R with
  | nil => simp [splitByIdx]
  | cons a t ih =>
    by_cases h0 : 0 ∈ R
    · simpa [splitByIdx, h0] using (ih (shiftDown R)).cons a
    · simp only [splitByIdx, h0, if_false]
      exact List.perm_middle.trans ((ih (shiftDown R)).cons a)

theorem moveShape1_perm (R : List Nat) (d : Nat) (l : List α) :
    List.Perm (moveShape1 R d l) l := by
  simp only [moveShape1]
  refine List.Perm.trans ?_ (splitByIdx_append_perm R l)
  have h1 : List.Perm
      ((splitByIdx R l).2.take d ++ (splitByIdx R l).1 ++ (splitByIdx R l).2.drop d)
      ((splitByIdx R l).1 ++ (splitByIdx R l).2.take d ++ (splitByIdx R l).2.drop d) :=
    List.Perm.append_right _ List.perm_append_comm
  refine h1.trans ?_
  rw [List.append_assoc, List.take_append_drop]

/-- Shape 2 with destination rows `R` is the inverse of shape 1 with source
rows `R`: moving the contiguous block at `d` back to the scattered rows `R`
undoes the move that gathered those rows at `d`. -/
theorem moveShape2_moveShape1 (R : List Nat) (d : Nat) (l : List α) (hd : R.Nodup)
    (hb : ∀ i ∈ R, i < l.length) (hdl : d + R.length ≤ l.length) :
    moveShape2 d R (moveShape1 R d l) = l := by
  have hfst := splitByIdx_length_fst R l hd hb
  have hsum := splitByIdx_length_sum R l
  simp only [moveShape1, moveShape2]
  set sel := (splitByIdx R l).1 with hsel
  set rest := (splitByIdx R l).2 with hrest
  have hdle : d ≤ rest.length := by omega
  have htake : (rest.take d).length = d := by
    simp only [List.length_take]
    omega
  have hdrop1 : ((rest.take d ++ sel ++ rest.drop d).drop d) = sel ++ rest.drop d := by
    rw [List.append_assoc]
    exact List.drop_left' htake
  have hblock : ((rest.take d ++ sel ++ rest.drop d).drop d).take R.length = sel := by
    rw [hdrop1]
    exact List.take_left' hfst
  have htakeeq : (rest.take d ++ sel ++ rest.drop d).take d = rest.take d := by
    rw [List.append_assoc]
    exact List.take_left' htake
  have hdropk : (rest.take d ++ sel ++ rest.drop d).drop (d + R.length) = rest.drop d := by
    refine List.drop_left' ?_
    simp [htake, hfst]
  rw [hblock, htakeeq, hdropk, List.take_append_drop]
  exact scatterIdx_splitByIdx R l

theorem shiftDown_range'_succ (s k : Nat) :
    shiftDown (List.range' (s + 1) k) = List.range' s k := by
  induction k generalizing s with
  | zero => simp [shiftDown]
  | succ k ih => rw [List.range'_succ, List.range'_succ, shiftDown, ih]

theorem shiftDown_range'_zero (k : Nat) :
    shiftDown (List.range' 0 (k + 1)) = List.range' 0 k := by
  rw [List.range'_succ, shiftDown, shiftDown_range'_succ]

/-- Selecting a contiguous range of indices is the usual slice. -/
theorem splitByIdx_range' (s k : Nat) (l : List α) :
    splitByIdx (List.range' s k) l = ((l.drop s).take k, l.take s ++ l.drop (s + k)) := by
  induction l generalizing s k with
  | nil => simp [splitByIdx]
  | cons a t ih =>
    cases s with
    | zero =>
      cases k with
      | zero => simp [splitByIdx_nil_left]
      | succ k =>
        have h0 : (0:Nat) ∈ List.range' 0 (k + 1) := by
          simp [List.mem_range'_1]
        simp [splitByIdx, h0, shiftDown_range'_zero, ih]
    | succ s =>
      have h0 : ¬ (0:Nat) ∈ List.range' (s + 1) k := by
        simp [List.mem_range'_1]
      have hadd : s + 1 + k = (s + k) + 1 := by omega
      simp [splitByIdx, h0, shiftDown_range'_succ, ih, hadd]

/-- Scattering a block to a contiguous destination range is the usual
"insert the block at `d`". -/
theorem scatterIdx_range' (block : List α) :
    ∀ (rest : List α) (d k : Nat), block.length ≤ k →
      scatterIdx (List.range' d k) block rest = rest.take d ++ block ++ rest.drop d := by
  induction block with
  | nil =>
    intro rest d k hbk
    simp [scatterIdx_nil, List.take_append_drop]
  | cons b bl ihb =>
    intro rest
    induction rest with
    | nil =>
      intro d k hbk
      cases d with
      | zero =>
        cases k with
        | zero => simp at hbk
        | succ k =>
          have h0 : (0:Nat) ∈ List.range' 0 (k + 1) := by simp [List.mem_range'_1]
          rw [scatterIdx_cons_mem _ h0, shiftDown_range'_zero]
          rw [ihb [] 0 k (by simpa using hbk)]
          simp
      | succ s =>
        have h0 : ¬ (0:Nat) ∈ List.range' (s + 1) k := by simp [List.mem_range'_1]
        rw [scatterIdx_cons_nil _ h0]
        simp
    | cons r rl ihr =>
      intro d k hbk
      cases d with
      | zero =>
        cases k with
        | zero => simp at hbk
        | succ k =>
          have h0 : (0:Nat) ∈ List.range' 0 (k + 1) := by simp [List.mem_range'_1]
          rw [scatterIdx_cons_mem _ h0, shiftDown_range'_zero]
          rw [ihb (r :: rl) 0 k (by simpa using hbk)]
          simp
      | succ s =>
        have h0 : ¬ (0:Nat) ∈ List.range' (s + 1) k := by simp [List.mem_range'_1]
        rw [scatterIdx_cons_cons _ h0, shiftDown_range'_succ]
        rw [ihr s k hbk]
        simp

/-- The two move call shapes agree on contiguous, symmetric inputs:
gathering the contiguous rows `[s, s+k)` at destination `d` equals moving
the block at `s` to the contiguous destinations `[d, d+k)`. -/
theorem moveShape1_eq_moveShape2 (s k d : Nat) (l : List α) :
    moveShape1 (List.range' s k) d l = moveShape2 s (List.range' d k) l := by
  simp only [moveShape1, moveShape2, splitByIdx_range', List.length_range']
  rw [scatterIdx_range' _ _ d k (by simp [List.length_take])]

/-! ### Shuffle permutation lemmas -/

theorem pseudoShuffle_perm_aux :
    ∀ (n : Nat) (seed : Nat) (l : List α), l.length ≤ n →
      List.Perm (pseudoShuffle seed l) l := by
  intro n
  induction n with
  | zero =>
    intro seed l hlen
    have : l = [] := List.eq_nil_of_length_eq_zero (Nat.le_zero.mp hlen)
    simp [this, pseudoShuffle]
  | succ n ih =>
    intro seed l hlen
    match l with
    | [] => simp [pseudoShuffle]
    | a :: t =>
      rw [pseudoShuffle.eq_def]
      simp only []
      split
      · exact List.Perm.refl _
      · rename_i x rest h
        have hi : seed % (t.length + 1) < t.length + 1 := Nat.mod_lt _ (by omega)
        have hlen2 : ((a :: t).take (seed % (t.length + 1)) ++ rest).length ≤ n := by
          have hdl := congrArg List.length h
          simp only [List.length_drop, List.length_cons] at hdl
          simp only [List.length_append, List.length_take, List.length_cons] at *
          omega
        have hp := ih (seed / (t.length + 1) + 1) _ hlen2
        refine (hp.cons x).trans ?_
        have hmid : List.Perm
            (x :: ((a :: t).take (seed % (t.length + 1)) ++ rest))
            ((a :: t).take (seed % (t.length + 1)) ++ x :: rest) :=
          List.perm_middle.symm
        refine hmid.trans ?_
        rw [← h, List.take_append_drop]

theorem pseudoShuffle_perm (seed : Nat) (l : List α) :
    List.Perm (pseudoShuffle seed l) l :=
  pseudoShuffle_perm_aux l.length seed l (Nat.le_refl _)

/-- `ReshuffleIndices` always produces a permutation of `0..n-1`. -/
theorem reshuffleIndices_perm (mode : ShuffleMode) (seed n : Nat) :
    List.Perm (reshuffleIndices mode seed n) (List.range n) := by
  cases mode with
  | off => exact List.Perm.refl _
  | all => exact pseudoShuffle_perm seed _
  | byAlbum => exact pseudoShuffle_perm seed _
  | byArtist => exact pseudoShuffle_perm seed _

/-- Under shuffle mode "off" the rebuilt Playback-Order Index is the
identity permutation. -/
theorem reshuffleIndices_off (seed n : Nat) :
    reshuffleIndices ShuffleMode.off seed n = List.range n := rfl

/-! ### Library reverse index lemmas -/

theorem libIndexOf_append (l₁ l₂ : List Song) :
    libIndexOf (l₁ ++ l₂) = libIndexOf l₁ ++ libIndexOf l₂ := by
  simp [libIndexOf]

theorem mem_libIndexOf (items : List Song) (k : Nat) (e : Song) :
    (k, e) ∈ libIndexOf items ↔ e ∈ items ∧ e.libraryId = some k := by
  simp only [libIndexOf, List.mem_filterMap, Option.map_eq_some']
  constructor
  · rintro ⟨a, ha, k', hk', heq⟩
    have h1 : k' = k := congrArg Prod.fst heq
    have h2 : a = e := congrArg Prod.snd heq
    subst h1; subst h2
    exact ⟨ha, hk'⟩
  · rintro ⟨he, hk⟩
    exact ⟨e, he, k, hk, rfl⟩

theorem perm_eraseOnePair_of_mem (k : Nat) (e : Song) :
    ∀ (m : List (Nat × Song)), (k, e) ∈ m →
      List.Perm m ((k, e) :: eraseOnePair k e m) := by
  intro m hm
  induction m with
  | nil => cases hm
  | cons p ps ih =>
    by_cases hp : p = (k, e)
    · subst hp
      simp [eraseOnePair]
    · have hmem : (k, e) ∈ ps := by
        cases hm with
        | head => exact absurd rfl hp
        | tail _ h => exact h
      have hps := ih hmem
      simp only [eraseOnePair, hp, if_false]
      exact (hps.cons p).trans (List.Perm.swap _ _ _)

/-- Erasing one reverse-index pair per removed entry takes the index from
"pairs of the removed entries plus the rest" to exactly "the rest". -/
theorem eraseLibPairs_perm (rm : List Song) :
    ∀ (m rest : List (Nat × Song)), List.Perm m (libIndexOf rm ++ rest) →
      List.Perm (eraseLibPairs rm m) rest := by
  induction rm with
  | nil =>
    intro m rest h
    simpa [eraseLibPairs, libIndexOf] using h
  | cons e rm ih =>
    intro m rest h
    cases he : e.libraryId with
    | none =>
      have hlib : libIndexOf (e :: rm) = libIndexOf rm := by simp [libIndexOf, he]
      rw [hlib] at h
      simpa [eraseLibPairs, he] using ih m rest h
    | some k =>
      have hlib : libIndexOf (e :: rm) = (k, e) :: libIndexOf rm := by simp [libIndexOf, he]
      rw [hlib, List.cons_append] at h
      have hmem : (k, e) ∈ m := h.mem_iff.mpr (List.mem_cons_self _ _)
      have hsplit := perm_eraseOnePair_of_mem k e m hmem
      have h2 : List.Perm (eraseOnePair k e m) (libIndexOf rm ++ rest) :=
        (hsplit.symm.trans h).cons_inv
      simpa [eraseLibPairs, he] using ih (eraseOnePair k e m) rest h2

/-! ### State invariants and their preservation -/

/-- The Playback-Order Index invariant (spec §3): `virtual_items_` is a
permutation of the store indices `0..N-1`, and the identity permutation
under shuffle mode "off". -/
def VirtualWF (s : Playlist) : Prop :=
  List.Perm s.virtual_items_ (List.range s.items_.length) ∧
  (s.shuffle_mode_ = ShuffleMode.off → s.virtual_items_ = List.range s.items_.length)

/-- The library reverse-index invariant (spec §3): `library_items_by_id_`
holds exactly the pairs determined by the entries' library back-references. -/
def LibWF (s : Playlist) : Prop :=
  List.Perm s.library_items_by_id_ (libIndexOf s.items_)

theorem virtualWF_execute (s : Playlist) (c : Command) (seed : Nat) (h : VirtualWF s) :
    VirtualWF (s.execute c seed) := by
  cases c with
  | insert entries pos =>
    constructor
    · simp only [Playlist.execute, Playlist.InsertItemsWithoutUndo]
      exact reshuffleIndices_perm _ _ _
    · intro hoff
      simp only [Playlist.execute, Playlist.InsertItemsWithoutUndo] at hoff ⊢
      rw [hoff, reshuffleIndices_off]
  | remove pos count =>
    by_cases hv : pos + count ≤ s.items_.length
    · constructor
      · simp only [Playlist.execute, hv, if_true, Playlist.RemoveItemsWithoutUndo]
        exact reshuffleIndices_perm _ _ _
      · intro hoff
        simp only [Playlist.execute, hv, if_true, Playlist.RemoveItemsWithoutUndo] at hoff ⊢
        rw [hoff, reshuffleIndices_off]
    · simpa [Playlist.execute, hv] using h
  | move R d =>
    constructor
    · simp only [Playlist.execute, Playlist.MoveItemsWithoutUndo]
      exact reshuffleIndices_perm _ _ _
    · intro hoff
      simp only [Playlist.execute, Playlist.MoveItemsWithoutUndo] at hoff ⊢
      rw [hoff, reshuffleIndices_off]

theorem virtualWF_applyOp (s : Playlist) (op : Op) (h : VirtualWF s) :
    VirtualWF (s.applyOp op) := by
  cases op with
  | insert entries pos seed => exact virtualWF_execute s _ seed h
  | remove pos count seed => exact virtualWF_execute s _ seed h
  | move R d seed => exact virtualWF_execute s _ seed h

theorem virtualWF_applyOps (ops : List Op) :
    ∀ (s : Playlist), VirtualWF s → VirtualWF (s.applyOps ops) := by
  induction ops with
  | nil => intro s h; exact h
  | cons op ops ih =>
    intro s h
    exact ih (s.applyOp op) (virtualWF_applyOp s op h)

theorem libWF_execute (s : Playlist) (c : Command) (seed : Nat) (h : LibWF s) :
    LibWF (s.execute c seed) := by
  cases c with
  | insert entries pos =>
    simp only [LibWF, Playlist.execute, Playlist.InsertItemsWithoutUndo] at h ⊢
    rw [libIndexOf_append, libIndexOf_append]
    have hTD : List.Perm s.library_items_by_id_
        (libIndexOf (s.items_.take (clampInsertPos pos s.items_.length)) ++
         libIndexOf (s.items_.drop (clampInsertPos pos s.items_.length))) := by
      rw [← libIndexOf_append, List.take_append_drop]
      exact h
    refine (hTD.append_right (libIndexOf entries)).trans ?_
    rw [List.append_assoc, List.append_assoc]
    exact List.Perm.append_left _ List.perm_append_comm
  | remove pos count =>
    by_cases hv : pos + count ≤ s.items_.length
    · simp only [LibWF, Playlist.execute, hv, if_true, Playlist.RemoveItemsWithoutUndo] at h ⊢
      rw [libIndexOf_append]
      refine eraseLibPairs_perm _ _ _ ?_
      have hdecomp : s.items_ =
          s.items_.take pos ++ (((s.items_.drop pos).take count) ++ s.items_.drop (pos + count)) := by
        rw [← List.drop_drop, List.take_append_drop, List.take_append_drop]
      have h' : List.Perm s.library_items_by_id_
          (libIndexOf (s.items_.take pos) ++
           (libIndexOf ((s.items_.drop pos).take count) ++
            libIndexOf (s.items_.drop (pos + count)))) := by
        rw [← libIndexOf_append, ← libIndexOf_append, ← hdecomp]
        exact h
      refine h'.trans ?_
      rw [← List.append_assoc, ← List.append_assoc]
      exact List.Perm.append_right _ List.perm_append_comm
    · simpa [Playlist.execute, hv] using h
  | move R d =>
    simp only [LibWF, Playlist.execute, Playlist.MoveItemsWithoutUndo] at h ⊢
    exact h.trans ((moveShape1_perm R d s.items_).filterMap _).symm

theorem libWF_applyOp (s : Playlist) (op : Op) (h : LibWF s) : LibWF (s.applyOp op) := by
  cases op with
  | insert entries pos seed => exact libWF_execute s _ seed h
  | remove pos count seed => exact libWF_execute s _ seed h
  | move R d seed => exact libWF_execute s _ seed h

theorem libWF_applyOps (ops : List Op) :
    ∀ (s : Playlist), LibWF s → LibWF (s.applyOps ops) := by
  induction ops with
  | nil => intro s h; exact h
  | cons op ops ih =>
    intro s h
    exact ih (s.applyOp op) (libWF_applyOp s op h)

/-! ### Concrete entries and states used in witnesses and scenarios -/

def songA : Song := ⟨"A", none, true⟩

def songB : Song := ⟨"B", some 5, true⟩

def songC : Song := ⟨"C", none, true⟩

def songX : Song := ⟨"X", none, true⟩

def songBlank : Song := ⟨"", none, true⟩

/-- A playlist holding `[A, B, C]`, shuffle and repeat off. -/
def demoPl : Playlist :=
  (emptyPlaylist ShuffleMode.off RepeatMode.off).execute
    (Command.insert [songA, songB, songC] (-1)) 0

/-- A small mixed operation sequence for the invariant witnesses. -/
def demoOps : List Op :=
  [Op.insert [songA, songB, songC] (-1) 7, Op.remove 1 1 3, Op.move [0] 1 5]

/-! ### Claim theorems -/

/-- C1: For every sequence of insert, remove, and move operations on the
Item Store, the Playback-Order Index (`virtual_items_`) is a permutation of
the store indices `0..N-1` where `N` is the current store size, and under
shuffle mode "off" it is the identity permutation. -/
theorem virtual_items_always_permutation (ops : List Op) (s : Playlist) (h : VirtualWF s) :
    List.Perm (s.applyOps ops).virtual_items_ (List.range (s.applyOps ops).items_.length) ∧
    ((s.applyOps ops).shuffle_mode_ = ShuffleMode.off →
      (s.applyOps ops).virtual_items_ = List.range (s.applyOps ops).items_.length) :=
  virtualWF_applyOps ops s h

theorem virtual_items_always_permutation_witness :
    List.Perm ((emptyPlaylist ShuffleMode.all RepeatMode.off).applyOps demoOps).virtual_items_
      (List.range ((emptyPlaylist ShuffleMode.all RepeatMode.off).applyOps demoOps).items_.length) ∧
    (((emptyPlaylist ShuffleMode.all RepeatMode.off).applyOps demoOps).shuffle_mode_ = ShuffleMode.off →
      ((emptyPlaylist ShuffleMode.all RepeatMode.off).applyOps demoOps).virtual_items_ =
        List.range (((emptyPlaylist ShuffleMode.all RepeatMode.off).applyOps demoOps)).items_.length) :=
  virtual_items_always_permutation demoOps (emptyPlaylist ShuffleMode.all RepeatMode.off)
    ⟨by decide, fun _ => rfl⟩

/-- C4: After every insert and every remove operation (indeed after any
sequence of executed operations), the library-ID reverse index
(`library_items_by_id_`) is exactly the inverse of the library
back-reference field across all entries of the Item Store: an entry appears
in the map under key `k` if and only if its back-reference is `k`. -/
theorem library_reverse_index_exact (ops : List Op) (s : Playlist) (h : LibWF s) :
    List.Perm (s.applyOps ops).library_items_by_id_ (libIndexOf (s.applyOps ops).items_) ∧
    ∀ (k : Nat) (e : Song), ((k, e) ∈ (s.applyOps ops).library_items_by_id_ ↔
      e ∈ (s.applyOps ops).items_ ∧ e.libraryId = some k) := by
  have hw := libWF_applyOps ops s h
  exact ⟨hw, fun k e => hw.mem_iff.trans (mem_libIndexOf _ k e)⟩

theorem library_reverse_index_exact_witness :
    List.Perm ((emptyPlaylist ShuffleMode.off RepeatMode.off).applyOps demoOps).library_items_by_id_
      (libIndexOf ((emptyPlaylist ShuffleMode.off RepeatMode.off).applyOps demoOps).items_) ∧
    ((5, songB) ∈ ((emptyPlaylist ShuffleMode.off RepeatMode.off).applyOps demoOps).library_items_by_id_ ↔
      songB ∈ ((emptyPlaylist ShuffleMode.off RepeatMode.off).applyOps demoOps).items_ ∧
      songB.libraryId = some 5) :=
  ⟨(library_reverse_index_exact demoOps (emptyPlaylist ShuffleMode.off RepeatMode.off) List.Perm.nil).1,
   (library_reverse_index_exact demoOps (emptyPlaylist ShuffleMode.off RepeatMode.off) List.Perm.nil).2 5 songB⟩

/-! ### Undo/redo round trip (claim C2) -/

theorem clampInsertPos_le (pos : Int) (size : Nat) : clampInsertPos pos size ≤ size := by
  unfold clampInsertPos
  split
  · exact Nat.le_refl _
  · rename_i hcond
    push_neg at hcond
    omega

/-- The preconditions under which a command reaches the Mutation Log
(remove is validated by `removeRows`; move rows come from selected model
rows, hence distinct in-range rows and an in-range destination). -/
def ValidCmd (s : Playlist) : Command → Prop
  | .insert _ _ => True
  | .remove pos count => pos + count ≤ s.items_.length
  | .move R d => R.Nodup ∧ (∀ i ∈ R, i < s.items_.length) ∧ d + R.length ≤ s.items_.length

/-- C2: For every store state and every single executed mutation command
(insert, remove, or move), `undo()` immediately after the command restores
the Item Store entry-for-entry, and `redo()` after that undo restores the
post-command store. -/
theorem undo_then_redo_restore (s : Playlist) (c : Command) (seed seed2 seed3 : Nat)
    (h : ValidCmd s c) :
    ((s.execute c seed).undo seed2).items_ = s.items_ ∧
    (((s.execute c seed).undo seed2).redo seed3).items_ = (s.execute c seed).items_ := by
  cases c with
  | insert entries pos =>
    have hple : clampInsertPos pos s.items_.length ≤ s.items_.length :=
      clampInsertPos_le pos s.items_.length
    set p := clampInsertPos pos s.items_.length with hpdef
    have htake : (s.items_.take p).length = p := by
      simp only [List.length_take]
      omega
    have h1 : (s.items_.take p ++ entries ++ s.items_.drop p).take p = s.items_.take p := by
      rw [List.append_assoc]
      exact List.take_left' htake
    have h2 : (s.items_.take p ++ entries ++ s.items_.drop p).drop (p + entries.length) =
        s.items_.drop p := by
      refine List.drop_left' ?_
      simp [htake]
    constructor
    · simp only [Playlist.execute, Playlist.undo, Playlist.applyInverse,
        Playlist.InsertItemsWithoutUndo, Playlist.RemoveItemsWithoutUndo]
      rw [h1, h2, List.take_append_drop]
    · simp only [Playlist.execute, Playlist.undo, Playlist.redo, Playlist.applyInverse,
        Playlist.applyForward, Playlist.InsertItemsWithoutUndo, Playlist.RemoveItemsWithoutUndo]
      rw [h1, h2, List.take_append_drop]
  | remove pos count =>
    have hv : pos + count ≤ s.items_.length := h
    have htake : (s.items_.take pos).length = pos := by
      simp only [List.length_take]
      omega
    have hclen : ((s.items_.drop pos).take count).length = count := by
      simp only [List.length_take, List.length_drop]
      omega
    have h1 : (s.items_.take pos ++ s.items_.drop (pos + count)).take pos = s.items_.take pos :=
      List.take_left' htake
    have h2 : (s.items_.take pos ++ s.items_.drop (pos + count)).drop pos =
        s.items_.drop (pos + count) :=
      List.drop_left' htake
    have hcd : (s.items_.drop pos).take count ++ s.items_.drop (pos + count) = s.items_.drop pos := by
      rw [← List.drop_drop, List.take_append_drop]
    constructor
    · simp only [Playlist.execute, if_pos hv, Playlist.undo, Playlist.applyInverse,
        Playlist.InsertItemsWithoutUndo, Playlist.RemoveItemsWithoutUndo]
      rw [h1, h2, List.append_assoc, hcd, List.take_append_drop]
    · simp only [Playlist.execute, if_pos hv, Playlist.undo, Playlist.redo, Playlist.applyInverse,
        Playlist.applyForward, Playlist.InsertItemsWithoutUndo, Playlist.RemoveItemsWithoutUndo]
      rw [h1, h2, List.append_assoc, hcd, List.take_append_drop, hclen]
  | move R d =>
    obtain ⟨hnd, hb, hdl⟩ := h
    have hrt : moveShape2 d R (moveShape1 R d s.items_) = s.items_ :=
      moveShape2_moveShape1 R d s.items_ hnd hb hdl
    constructor
    · simp only [Playlist.execute, Playlist.undo, Playlist.applyInverse,
        Playlist.MoveItemsWithoutUndo, Playlist.MoveItemsWithoutUndoDest]
      exact hrt
    · simp only [Playlist.execute, Playlist.undo, Playlist.redo, Playlist.applyInverse,
        Playlist.applyForward, Playlist.MoveItemsWithoutUndo, Playlist.MoveItemsWithoutUndoDest]
      rw [hrt]

theorem undo_then_redo_restore_witness :
    ((demoPl.execute (Command.insert [songX] 1) 0).undo 0).items_ = demoPl.items_ ∧
    (((demoPl.execute (Command.insert [songX] 1) 0).undo 0).redo 0).items_ =
      (demoPl.execute (Command.insert [songX] 1) 0).items_ :=
  undo_then_redo_restore demoPl (Command.insert [songX] 1) 0 0 0 trivial

/-! ### Traversal (claim C3) -/

theorem indexOf_range' (m : Nat) :
    ∀ (s k : Nat), s ≤ m → m < s + k → (List.range' s k).indexOf m = m - s := by
  intro s k
  induction k generalizing s with
  | zero => omega
  | succ k ih =>
    intro h1 h2
    rw [List.range'_succ]
    by_cases hm : s = m
    · subst hm
      simp [List.indexOf_cons_self]
    · rw [List.indexOf_cons_ne _ hm]
      rw [ih (s + 1) (by omega) (by omega)]
      omega

theorem indexOf_range (n m : Nat) (h : m < n) : (List.range n).indexOf m = m := by
  rw [List.range_eq_range']
  simpa using indexOf_range' m 0 n (Nat.zero_le m) (by omega)

/-- C3: for every valid current store index, under repeat mode "track"
`next_row(current)` equals `current`; under shuffle off and repeat off,
`next_row` returns `current + 1`, or none when `current` is the last store
index. -/
theorem next_row_repeat_track_and_sequential (s : Playlist) (current : Nat)
    (hwf : VirtualWF s) (hcur : current < s.items_.length) :
    (s.repeat_mode_ = RepeatMode.track → s.next_row current = some current) ∧
    (s.shuffle_mode_ = ShuffleMode.off → s.repeat_mode_ = RepeatMode.off →
      s.next_row current =
        if current + 1 < s.items_.length then some (current + 1) else none) := by
  constructor
  · intro htrack
    have hmem : current ∈ s.virtual_items_ :=
      hwf.1.mem_iff.mpr (List.mem_range.mpr hcur)
    have hlt : s.virtual_items_.indexOf current < s.virtual_items_.length :=
      List.indexOf_lt_length.mpr hmem
    simp only [Playlist.next_row, Playlist.NextVirtualIndex, htrack, Option.bind_some,
      Option.some_bind]
    rw [List.getElem?_eq_getElem hlt]
    have := List.indexOf_get hlt
    simp only [List.get_eq_getElem] at this
    rw [this]
  · intro hshuffle hrepeat
    have hv : s.virtual_items_ = List.range s.items_.length := hwf.2 hshuffle
    simp only [Playlist.next_row, Playlist.NextVirtualIndex, hrepeat, hv,
      indexOf_range _ _ hcur, List.length_range]
    by_cases hlt : current + 1 < s.items_.length
    · simp [hlt]
    · simp [hlt]

theorem next_row_repeat_track_and_sequential_witness :
    (demoPl.repeat_mode_ = RepeatMode.track → demoPl.next_row 1 = some 1) ∧
    (demoPl.shuffle_mode_ = ShuffleMode.off → demoPl.repeat_mode_ = RepeatMode.off →
      demoPl.next_row 1 =
        if 1 + 1 < demoPl.items_.length then some (1 + 1) else none) :=
  next_row_repeat_track_and_sequential demoPl 1 ⟨by decide, fun _ => by decide⟩ (by decide)

/-! ### Veto pipeline (claim C5) -/

theorem mem_vetoedSongs (s : Playlist) (candidates : List Song) (c : Song) :
    c ∈ vetoedSongs s candidates ↔
      ∃ L ∈ s.veto_listeners_, c ∈ L s.GetAllSongs candidates := by
  have haux : ∀ (Ls : List (List Song → List Song → List Song)) (acc : List Song),
      c ∈ Ls.foldl (fun a L => a ++ L s.GetAllSongs candidates) acc ↔
        c ∈ acc ∨ ∃ L ∈ Ls, c ∈ L s.GetAllSongs candidates := by
    intro Ls
    induction Ls with
    | nil => intro acc; simp
    | cons L Ls ih =>
      intro acc
      rw [List.foldl_cons, ih]
      simp only [List.mem_append, List.mem_cons]
      constructor
      · rintro ((h | h) | ⟨L', hL', hc⟩)
        · exact Or.inl h
        · exact Or.inr ⟨L, Or.inl rfl, h⟩
        · exact Or.inr ⟨L', Or.inr hL', hc⟩
      · rintro (h | ⟨L', (rfl | hL'), hc⟩)
        · exact Or.inl (Or.inl h)
        · exact Or.inl (Or.inr hc)
        · exact Or.inr ⟨L', hL', hc⟩
  simpa [vetoedSongs] using haux s.veto_listeners_ []

/-- The veto listener of the spec scenario: rejects any candidate with an
empty title. -/
def blankTitleVeto : List Song → List Song → List Song :=
  fun _old news => news.filter (fun c => c.title == "")

/-- An empty playlist with the blank-title veto listener registered. -/
def vetoPl : Playlist :=
  { emptyPlaylist ShuffleMode.off RepeatMode.off with veto_listeners_ := [blankTitleVeto] }

/-- C5: every candidate reported invalid by any registered veto listener is
excluded from the insertion; the surviving candidates are inserted as one
single batched undoable command; and with a listener vetoing empty-titled
candidates, inserting `[{title:""}, {title:"X"}]` into an empty store leaves
only the entry titled "X". -/
theorem veto_excludes_and_single_batch (s : Playlist) (candidates : List Song) (pos : Int)
    (seed : Nat) :
    (∀ c ∈ candidates, (∃ L ∈ s.veto_listeners_, c ∈ L s.GetAllSongs candidates) →
      c ∉ survivors s candidates) ∧
    (s.InsertSongs candidates pos false false seed).items_ =
      s.items_.take (clampInsertPos pos s.items_.length) ++ survivors s candidates ++
        s.items_.drop (clampInsertPos pos s.items_.length) ∧
    (s.InsertSongs candidates pos false false seed).undo_stack_.length =
      s.undo_stack_.length + 1 ∧
    (vetoPl.InsertSongs [songBlank, songX]).items_ = [songX] := by
  refine ⟨?_, ?_, ?_, ?_⟩
  · intro c hc hex hmem
    have hdec := (List.mem_filter.mp hmem).2
    simp only [decide_eq_true_eq] at hdec
    exact hdec ((mem_vetoedSongs s candidates c).mpr hex)
  · simp [Playlist.InsertSongs, Playlist.InsertItems, Playlist.execute,
      Playlist.InsertItemsWithoutUndo]
  · simp [Playlist.InsertSongs, Playlist.InsertItems, Playlist.execute,
      Playlist.InsertItemsWithoutUndo]
  · rfl

theorem veto_excludes_and_single_batch_witness :
    songBlank ∉ survivors vetoPl [songBlank, songX] ∧
    (vetoPl.InsertSongs [songBlank, songX] (-1) false false 0).items_ =
      vetoPl.items_.take (clampInsertPos (-1) vetoPl.items_.length) ++
        survivors vetoPl [songBlank, songX] ++
        vetoPl.items_.drop (clampInsertPos (-1) vetoPl.items_.length) :=
  ⟨(veto_excludes_and_single_batch vetoPl [songBlank, songX] (-1) 0).1 songBlank (by decide)
      ⟨blankTitleVeto, List.mem_singleton_self _, by decide⟩,
   (veto_excludes_and_single_batch vetoPl [songBlank, songX] (-1) 0).2.1⟩

/-! ### Current pointer on remove (claim C6) -/

/-- C6: for every `remove(position, count)`: a current-item pointer inside
the removed range is cleared and a current-changed notification fires; a
pointer after the removed range is decremented by `count` and still refers
to the same entry. -/
theorem remove_updates_current_pointer (s : Playlist) (p c i seed : Nat)
    (hcur : s.current_item_index_ = some i) (hv : p + c ≤ s.items_.length) :
    (p ≤ i ∧ i < p + c →
      (s.RemoveItemsWithoutUndo p c seed).1.current_item_index_ = none ∧
      (s.RemoveItemsWithoutUndo p c seed).1.events_ =
        s.events_ ++ [PEvent.currentChanged, PEvent.playlistChanged]) ∧
    (p + c ≤ i →
      (s.RemoveItemsWithoutUndo p c seed).1.current_item_index_ = some (i - c) ∧
      ((s.RemoveItemsWithoutUndo p c seed).1.items_)[i - c]? = s.items_[i]?) := by
  constructor
  · rintro ⟨hge, hlt⟩
    have hcl : decide (p ≤ i ∧ i < p + c) = true := decide_eq_true ⟨hge, hlt⟩
    constructor
    · simp only [Playlist.RemoveItemsWithoutUndo, hcur, remapRemovePtr]
      rw [if_neg (by omega), if_pos hlt]
    · simp only [Playlist.RemoveItemsWithoutUndo, hcur, hcl, if_true]
      simp
  · intro hge
    constructor
    · simp only [Playlist.RemoveItemsWithoutUndo, hcur, remapRemovePtr]
      rw [if_neg (by omega), if_neg (by omega)]
    · simp only [Playlist.RemoveItemsWithoutUndo, hcur]
      have hplen : (s.items_.take p).length = p := by
        simp only [List.length_take]
        omega
      rw [List.getElem?_append_right (by omega : (s.items_.take p).length ≤ i - c)]
      rw [hplen, List.getElem?_drop]
      have heq : p + c + (i - c - p) = i := by omega
      rw [heq]

theorem remove_updates_current_pointer_witness :
    ({ demoPl with current_item_index_ := some 2 }.RemoveItemsWithoutUndo 0 1 0).1.current_item_index_ =
      some (2 - 1) ∧
    (({ demoPl with current_item_index_ := some 2 }.RemoveItemsWithoutUndo 0 1 0).1.items_)[2 - 1]? =
      ({ demoPl with current_item_index_ := some 2 } : Playlist).items_[2]? :=
  (remove_updates_current_pointer { demoPl with current_item_index_ := some 2 } 0 1 2 0
    rfl (by decide)).2 (by decide)

/-! ### Out-of-range remove (claim C7) -/

/-- C7: `remove(position, count)` fails with OutOfRange whenever the range
`[position, position+count)` is not fully contained in `[0, size)`; in
particular removing from an empty store fails with OutOfRange, and a failed
remove leaves the store unchanged. -/
theorem removeRows_fails_out_of_range (s : Playlist) (row count : Int) (seed : Nat) :
    (¬ (0 ≤ row ∧ row + count ≤ (s.items_.length : Int)) →
      s.removeRows row count seed = (s, some PlaylistError.outOfRange)) ∧
    (s.items_ = [] → 1 ≤ count →
      s.removeRows row count seed = (s, some PlaylistError.outOfRange)) := by
  constructor
  · intro hnot
    unfold Playlist.removeRows
    rw [if_neg]
    intro hcond
    exact hnot ⟨hcond.1, hcond.2.2⟩
  · intro hemp hcnt
    unfold Playlist.removeRows
    rw [if_neg]
    rintro ⟨h1, h2, h3⟩
    rw [hemp] at h3
    simp only [List.length_nil, Nat.cast_zero] at h3
    omega

theorem removeRows_fails_out_of_range_witness :
    ((emptyPlaylist ShuffleMode.off RepeatMode.off).removeRows 0 1 0 =
      (emptyPlaylist ShuffleMode.off RepeatMode.off, some PlaylistError.outOfRange)) ∧
    ((emptyPlaylist ShuffleMode.off RepeatMode.off).removeRows 0 1 0 =
      (emptyPlaylist ShuffleMode.off RepeatMode.off, some PlaylistError.outOfRange)) :=
  ⟨(removeRows_fails_out_of_range (emptyPlaylist ShuffleMode.off RepeatMode.off) 0 1 0).1
      (by decide),
   (removeRows_fails_out_of_range (emptyPlaylist ShuffleMode.off RepeatMode.off) 0 1 0).2
      rfl (by decide)⟩

/-! ### Equivalence of the two move shapes (claim C8) -/

/-- C8: the two `MoveItemsWithoutUndo` call shapes produce the same
resulting store order and the same current/last-played/stop-after pointer
remapping for symmetric (contiguous) inputs — the whole resulting states
are equal; and `move([0,2], destination=1)` on `[A,B,C]` yields `[B,A,C]`
with `A` before `C`. -/
theorem move_call_shapes_agree (pl : Playlist) (srt k d seed : Nat) :
    pl.MoveItemsWithoutUndo (List.range' srt k) d seed =
      pl.MoveItemsWithoutUndoDest srt (List.range' d k) seed ∧
    moveShape1 [0, 2] 1 [songA, songB, songC] = [songB, songA, songC] := by
  constructor
  · simp only [Playlist.MoveItemsWithoutUndo, Playlist.MoveItemsWithoutUndoDest,
      moveShape1_eq_moveShape2]
  · decide

/-! ### Insert position semantics (claim C9) -/

/-- C9: every insertion clamps its position to `[0, size]`; an unspecified
or negative position means append at the end; and the default position
argument of every public insertion operation (`InsertItems`, `InsertSongs`,
`InsertLibraryItems`, `InsertSongsOrLibraryItems`, `InsertSmartPlaylist`,
`InsertUrls`) is `-1`. -/
theorem insert_position_clamped_and_default (s : Playlist) (entries : List Song) (pos : Int)
    (resolve : String → Option Song) (urls : List String) :
    clampInsertPos pos s.items_.length ≤ s.items_.length ∧
    (pos < 0 → clampInsertPos pos s.items_.length = s.items_.length) ∧
    (s.InsertItems entries pos).items_ =
      s.items_.take (clampInsertPos pos s.items_.length) ++ survivors s entries ++
        s.items_.drop (clampInsertPos pos s.items_.length) ∧
    (s.InsertItems entries : Playlist) = s.InsertItems entries (-1) ∧
    (s.InsertSongs entries : Playlist) = s.InsertSongs entries (-1) ∧
    (s.InsertLibraryItems entries : Playlist) = s.InsertLibraryItems entries (-1) ∧
    (s.InsertSongsOrLibraryItems entries : Playlist) = s.InsertSongsOrLibraryItems entries (-1) ∧
    (s.InsertSmartPlaylist entries : Playlist) = s.InsertSmartPlaylist entries (-1) ∧
    (s.InsertUrls resolve urls : Playlist) = s.InsertUrls resolve urls (-1) := by
  refine ⟨clampInsertPos_le pos _, ?_, ?_, rfl, rfl, rfl, rfl, rfl, rfl⟩
  · intro hneg
    simp [clampInsertPos, hneg]
  · simp [Playlist.InsertItems, Playlist.execute, Playlist.InsertItemsWithoutUndo]

theorem insert_position_clamped_and_default_witness :
    clampInsertPos (-1) demoPl.items_.length ≤ demoPl.items_.length ∧
    clampInsertPos (-1) demoPl.items_.length = demoPl.items_.length ∧
    (demoPl.InsertItems [songX] (-1)).items_ =
      demoPl.items_.take (clampInsertPos (-1) demoPl.items_.length) ++
        survivors demoPl [songX] ++
        demoPl.items_.drop (clampInsertPos (-1) demoPl.items_.length) ∧
    (demoPl.InsertSongs [songX] : Playlist) = demoPl.InsertSongs [songX] (-1) :=
  ⟨(insert_position_clamped_and_default demoPl [songX] (-1) (fun _ => none) []).1,
   (insert_position_clamped_and_default demoPl [songX] (-1) (fun _ => none) []).2.1 (by decide),
   (insert_position_clamped_and_default demoPl [songX] (-1) (fun _ => none) []).2.2.1,
   (insert_position_clamped_and_default demoPl [songX] (-1) (fun _ => none) []).2.2.2.2.1⟩

/-! ### Bounds guard (claim C10) -/

/-- C10: `has_item_at(index)` returns true exactly when
`0 <= index < rowCount()`, and under that guard the unchecked positional
access `item_at(index)` is well-defined and returns the entry at store
position `index` (`item_at` itself performs no bounds check — its bound is
a precondition, discharged exactly by `has_item_at`). -/
theorem has_item_at_guards_item_at (s : Playlist) (index : Int) :
    (s.has_item_at index = true ↔ 0 ≤ index ∧ index < (s.rowCount : Int)) ∧
    (s.has_item_at index = true →
      ∃ h : index.toNat < s.items_.length,
        s.items_[index.toNat]? = some (s.item_at index.toNat h)) := by
  have hiff : s.has_item_at index = true ↔ 0 ≤ index ∧ index < (s.rowCount : Int) := by
    simp [Playlist.has_item_at]
  refine ⟨hiff, ?_⟩
  intro hh
  obtain ⟨h0, hlt⟩ := hiff.mp hh
  have hnat : index.toNat < s.items_.length := by
    simp only [Playlist.rowCount] at hlt
    omega
  refine ⟨hnat, ?_⟩
  rw [List.getElem?_eq_getElem hnat]
  rfl

theorem has_item_at_guards_item_at_witness :
    (demoPl.has_item_at 2 = true ↔ 0 ≤ (2 : Int) ∧ (2 : Int) < (demoPl.rowCount : Int)) ∧
    (∃ h : (2 : Int).toNat < demoPl.items_.length,
      demoPl.items_[(2 : Int).toNat]? = some (demoPl.item_at (2 : Int).toNat h)) :=
  ⟨(has_item_at_guards_item_at demoPl 2).1,
   (has_item_at_guards_item_at demoPl 2).2 (by decide)⟩

end Clementine
